import Mathlib

/-!
Verification of the fastDijkstra repository (BMSSP shortest paths).

The repository's algorithmic sources (src/Graph.cpp, src/BatchHeap.cpp,
src/Dijkstra.cpp, src/FindPivot.cpp, src/BMSSP.cpp, listed in setup.py) are
not present in the checkout; only the Python packaging layer
(fastdijkstra/__init__.py, python/__init__.py, python/examples.py, setup.py)
is.  The algorithmic definitions below are therefore modelled from the
design specification (spec.md), faithfully following its pseudocode; the
Python import layer is embedded directly from fastdijkstra/__init__.py.

Distances are real-valued in the spec with ∞ for "unreached"; we embed them
as `Option Nat` (`none` = ∞), with natural-number weights, which covers all
of the spec's concrete scenarios and its arithmetic rules
(finite + ∞ = ∞, ∞ never less than a finite value).
-/

namespace FastDijkstra

/-- Distance value: `none` denotes ∞ (unreached), `some a` a finite distance. -/
abbrev Dist := Option Nat

/-- Modelled from the spec: "any finite + ∞ is ∞".  Adding a finite edge
weight to a distance. -/
def dadd : Dist → Nat → Dist
  | none, _ => none
  | some a, w => some (a + w)

/-- Strict comparison on distances: "∞ is never less than anything finite";
a finite value is less than ∞. -/
def dlt : Dist → Dist → Bool
  | none, _ => false
  | some _, none => true
  | some a, some b => decide (a < b)

/-- Non-strict comparison on distances. -/
def dle : Dist → Dist → Bool
  | none, none => true
  | none, some _ => false
  | some _, none => true
  | some a, some b => decide (a ≤ b)

/-- Minimum of two distances. -/
def dmin : Dist → Dist → Dist
  | none, b => b
  | some a, none => some a
  | some a, some b => some (min a b)

/-- Modelled from the spec: immutable directed graph with `n` vertices,
edge list `(u, v, w)` in insertion order, and the two cached integer
parameters `k ≥ 1`, `t ≥ 1` derived from `n` (spec §3).  The spec computes
`k = ⌊(ln n)^(1/3)⌋` and `t = ⌊(ln n)^(2/3)⌋`, both clamped to 1, from
real-valued natural logarithms (and flags the exact formula as an open
question, spec §9); we carry `k` and `t` as the cached fields themselves. -/
structure Graph where
  n : Nat
  edges : List (Nat × Nat × Nat)
  k : Nat
  t : Nat
deriving Repr

/-- Adjacency: `(v, w)` pairs outgoing from `u`, in insertion order (spec §4.1). -/
def Graph.neighbors (g : Graph) (u : Nat) : List (Nat × Nat) :=
  (g.edges.filter (fun e => e.1 == u)).map (fun e => (e.2.1, e.2.2))

/-- Mutable run state: the caller-owned distance and predecessor arrays
(spec §3), embedded as functions from vertex indices. -/
structure St where
  d : Nat → Dist
  pred : Nat → Int

/-- Modelled from the spec: the single relaxation step shared by all three
procedures.  If `d[u] + w < min(d[v], B)` then set `d[v] = d[u] + w` and
`pred[v] = u`, updating the two arrays jointly (spec §4.3, §4.4, §4.5);
`B = none` gives the unbounded relaxation of BMSSP step 5d. -/
def relaxB (B : Dist) (st : St) (u v : Nat) (w : Nat) : St :=
  if dlt (dadd (st.d u) w) (dmin (st.d v) B) then
    { d := fun x => if x = v then dadd (st.d u) w else st.d x,
      pred := fun x => if x = v then (u : Int) else st.pred x }
  else st

/-- Error taxonomy of spec §7 (kinds, not types). -/
inductive Err where
  | preconditionViolation
  | invalidArgument
  | resourceExhausted
deriving Repr, DecidableEq

/-! ### Oracle Dijkstra (spec §6 `run_dijkstra`) -/

/-- `a` is strictly better than `b` for extraction: smaller distance, ties
broken by vertex index ascending (spec §5). -/
def better (d : Nat → Dist) (a b : Nat) : Bool :=
  dlt (d a) (d b) || (d a == d b && a < b)

/-- Pick the extraction-minimal vertex of a list: minimal `(d v, v)`
lexicographically. -/
def pickMin (d : Nat → Dist) : List Nat → Option Nat
  | [] => none
  | x :: xs =>
    match pickMin d xs with
    | none => some x
    | some y => if better d x y then some x else some y

/-- Modelled from the spec: main loop of the classical Dijkstra oracle;
repeatedly completes the unvisited vertex with smallest (distance, index)
and relaxes its out-edges, stopping when only unreached vertices remain. -/
def dijkstraLoop (g : Graph) : Nat → List Nat → St → St
  | 0, _, st => st
  | fuel + 1, unvisited, st =>
    match pickMin st.d unvisited with
    | none => st
    | some u =>
      if st.d u = none then st
      else
        let st' := (g.neighbors u).foldl (fun s p => relaxB none s u p.1 p.2) st
        dijkstraLoop g fuel (unvisited.filter (fun x => x != u)) st'

/-- Modelled from the spec: `run_dijkstra(graph, source)` returns the
distance and predecessor arrays, with `d[s] = 0`, all other distances ∞,
all predecessors −1 initially (spec §3, §6). -/
def runDijkstra (g : Graph) (s : Nat) : List Dist × List Int :=
  let st0 : St := { d := fun x => if x = s then some 0 else none, pred := fun _ => -1 }
  let stF := dijkstraLoop g g.n (List.range g.n) st0
  ((List.range g.n).map stF.d, (List.range g.n).map stF.pred)

/-! ### BatchHeap (spec §4.2) -/

/-- BatchHeap ordering on `(vertex, key)` pairs: by key, ties broken by
vertex index ascending (spec §5). -/
def pairLt (a b : Nat × Nat) : Bool :=
  a.2 < b.2 || (a.2 == b.2 && a.1 < b.1)

/-- Modelled from the spec: the bound-aware partially-sorted priority store
(spec §4.2).  Using the spec's stated implementation latitude, the contents
are kept as a single list sorted by `pairLt` with at most one pair per
vertex and every key `< B`; the pull region is its length-`M` prefix. -/
structure BatchHeap where
  M : Nat
  B : Dist
  items : List (Nat × Nat)
deriving Repr

def mkBatchHeap (M : Nat) (B : Dist) : BatchHeap := ⟨M, B, []⟩

/-- Insert a pair into a `pairLt`-sorted list, keeping it sorted. -/
def sortedInsert (p : Nat × Nat) : List (Nat × Nat) → List (Nat × Nat)
  | [] => [p]
  | q :: qs => if pairLt p q then p :: q :: qs else q :: sortedInsert p qs

/-- Modelled from the spec: `insert(v, key)`: if `key ≥ B`, no-op;
otherwise if `v` is already present with key ≤ `key`, no-op; else set v's
key to `min(existing, key)` (spec §4.2). -/
def BatchHeap.insert (h : BatchHeap) (v key : Nat) : BatchHeap :=
  if dlt (some key) h.B then
    match h.items.find? (fun p => p.1 == v) with
    | some p =>
      if p.2 ≤ key then h
      else { h with items := sortedInsert (v, key) (h.items.filter (fun q => q.1 != v)) }
    | none => { h with items := sortedInsert (v, key) h.items }
  else h

/-- Modelled from the spec: `pull()` removes up to `M` of the
smallest-keyed pairs (ties by vertex index) and returns `(B_pull, block)`,
where `B_pull` is the smallest key remaining after removal, or `B` if the
heap is (or becomes) empty (spec §4.2). -/
def BatchHeap.pull (h : BatchHeap) : Dist × List Nat × BatchHeap :=
  let taken := h.items.take h.M
  let rest := h.items.drop h.M
  let Bp : Dist := match rest with | [] => h.B | q :: _ => some q.2
  (Bp, taken.map (fun p => p.1), { h with items := rest })

/-- Modelled from the spec: `batch_prepend(pairs)` inserts each `(v, key)`
with the same `≥ B` filtering and min-update rule (spec §4.2). -/
def BatchHeap.batchPrepend (h : BatchHeap) (ps : List (Nat × Nat)) : BatchHeap :=
  ps.foldl (fun hh p => hh.insert p.1 p.2) h

def BatchHeap.isEmpty (h : BatchHeap) : Bool := h.items.isEmpty

def BatchHeap.size (h : BatchHeap) : Nat := h.items.length

/-! ### BaseCase (spec §4.3) -/

/-- Relax the out-edges of a just-completed vertex `v`, bounded by `B`,
extending the discovery queue with newly improved vertices that are neither
completed nor already queued. -/
def bcRelaxOut (g : Graph) (B : Dist) (v : Nat) (completed : List Nat)
    (stq : St × List Nat) : St × List Nat :=
  (g.neighbors v).foldl
    (fun (b : St × List Nat) p =>
      if dlt (dadd (b.1.d v) p.2) (dmin (b.1.d p.1) B) then
        (relaxB B b.1 v p.1 p.2,
         if completed.contains p.1 || b.2.contains p.1 then b.2 else b.2 ++ [p.1])
      else b)
    stq

/-- Modelled from the spec: bounded-Dijkstra loop of BaseCase; completes
the queued vertex with smallest (distance, index) and relaxes its
out-edges into vertices whose tentative distance stays `< B`, until the
completed set reaches size `k+1` or the queue empties (spec §4.3). -/
def baseCaseLoop (g : Graph) (B : Dist) :
    Nat → List Nat → List Nat → St → List Nat × St
  | 0, completed, _, st => (completed, st)
  | fuel + 1, completed, queue, st =>
    if g.k + 1 ≤ completed.length then (completed, st)
    else
      match pickMin st.d queue with
      | none => (completed, st)
      | some v =>
        let completed' := completed ++ [v]
        let rel := bcRelaxOut g B v completed' (st, queue.filter (fun x => x != v))
        baseCaseLoop g B fuel completed' rel.2 rel.1

/-- Maximum distance over a list of (completed) vertices. -/
def maxDistOver (d : Nat → Dist) (l : List Nat) : Dist :=
  l.foldl (fun m v => if dlt m (d v) then d v else m) (some 0)

/-- Modelled from the spec: `base_case(graph, x, B) → (B', U)` — bounded
Dijkstra from `x`; if the completed set reached size `k+1`, `B'` is the
maximum distance among the completed vertices and `U` is trimmed to those
with distance `< B'`; otherwise `B' = B` and `U` is the completed set
(spec §4.3). -/
def base_case (g : Graph) (x : Nat) (B : Dist) (st : St) : Dist × List Nat × St :=
  let bl := baseCaseLoop g B (g.k + 2) [] [x] st
  if g.k + 1 ≤ bl.1.length then
    let dmax := maxDistOver bl.2.d bl.1
    (dmax, bl.1.filter (fun v => dlt (bl.2.d v) dmax), bl.2)
  else (B, bl.1, bl.2)

/-! ### FindPivots (spec §4.4) -/

/-- One relaxation attempt of a FindPivots round along edge `u → (v, w)`:
on success the witness set `W` gains `v` and the round-local forest parent
of `v` becomes `u` (spec §4.4). -/
def fpEdgeStep (B : Dist) (u : Nat) (acc : St × List Nat × List (Nat × Nat))
    (p : Nat × Nat) : St × List Nat × List (Nat × Nat) :=
  if dlt (dadd (acc.1.d u) p.2) (dmin (acc.1.d p.1) B) then
    (relaxB B acc.1 u p.1 p.2,
     if acc.2.1.contains p.1 then acc.2.1 else acc.2.1 ++ [p.1],
     (p.1, u) :: acc.2.2.filter (fun q => q.1 != p.1))
  else acc

/-- One Bellman-Ford-style round of FindPivots: relax every edge out of
every vertex of the witness set as of the start of the round (spec §4.4). -/
def fpRound (g : Graph) (B : Dist) (acc : St × List Nat × List (Nat × Nat)) :
    St × List Nat × List (Nat × Nat) :=
  let snapshot := acc.2.1
  snapshot.foldl (fun a u => (g.neighbors u).foldl (fpEdgeStep B u) a) acc

/-- Exactly `r` FindPivots rounds. -/
def fpRounds (g : Graph) (B : Dist) :
    Nat → (St × List Nat × List (Nat × Nat)) → St × List Nat × List (Nat × Nat)
  | 0, acc => acc
  | r + 1, acc => fpRounds g B r (fpRound g B acc)

/-- Does following the round-local forest parents from `v` reach `s`
within `fuel` steps? -/
def chainReaches (par : List (Nat × Nat)) : Nat → Nat → Nat → Bool
  | 0, _, _ => false
  | fuel + 1, v, s =>
    if v = s then true
    else
      match par.find? (fun q => q.1 == v) with
      | none => false
      | some q => chainReaches par fuel q.2 s

/-- Size of the forest subtree rooted at `s`, inside the witness set `W`. -/
def subtreeSize (par : List (Nat × Nat)) (W : List Nat) (s : Nat) : Nat :=
  (W.filter (fun w => chainReaches par (W.length + 1) w s)).length

/-- Modelled from the spec: `find_pivots(graph, B, S) → (P, W)` — `k`
rounds of relaxation from `S` growing the witness set `W` (initialized to
`S`); if afterwards `|W| > k·|S|`, return `(S, S)`; otherwise the pivots
are the sources whose forest subtree has size ≥ k (spec §4.4).  `|S| = 0`
returns `(∅, ∅)`. -/
def find_pivots (g : Graph) (B : Dist) (S : List Nat) (st : St) :
    List Nat × List Nat × St :=
  if S.isEmpty then ([], [], st)
  else
    let r := fpRounds g B g.k (st, S, [])
    if g.k * S.length < r.2.1.length then (S, S, r.1)
    else (S.filter (fun s => g.k ≤ subtreeSize r.2.2 r.2.1 s), r.2.1, r.1)

/-! ### BMSSP (spec §4.5) -/

/-- Precondition check at BMSSP entry (spec §4.5 failure semantics):
every `v ∈ S` lies in the valid vertex range and has finite `d[v]`. -/
def checkS (g : Graph) (S : List Nat) (st : St) : Bool :=
  S.all (fun v => decide (v < g.n) && st.d v != none)

/-- Add the elements of `l` not yet present to the accumulator list
(set union keeping first-seen order). -/
def addUnique (acc l : List Nat) : List Nat :=
  l.foldl (fun a v => if a.contains v then a else a ++ [v]) acc

/-- BMSSP step 5d for one edge `u → (v, w)` with `u` in the just-completed
set: relax unboundedly; on success route `v` to the heap when
`B_i ≤ d[v] < B`, or to the prepend batch `K` when `d[v] < B_i`
(spec §4.5 step 5d). -/
def bmsspRelaxStep (B Bi : Dist) (u : Nat)
    (acc : St × BatchHeap × List (Nat × Nat)) (p : Nat × Nat) :
    St × BatchHeap × List (Nat × Nat) :=
  if dlt (dadd (acc.1.d u) p.2) (acc.1.d p.1) then
    let dv := dadd (acc.1.d u) p.2
    let s' := relaxB none acc.1 u p.1 p.2
    match dv with
    | some dvn =>
      if dle Bi dv && dlt dv B then (s', acc.2.1.insert p.1 dvn, acc.2.2)
      else if dlt dv Bi then (s', acc.2.1, acc.2.2 ++ [(p.1, dvn)])
      else (s', acc.2.1, acc.2.2)
    | none => (s', acc.2.1, acc.2.2)
  else acc

/-- BMSSP step 5e: for every `x ∈ S_i` with `B'_i ≤ d[x] < B_i`,
accumulate `(x, d[x])` into the prepend batch (spec §4.5 step 5e). -/
def bmsspCollectSi (st : St) (Bpi Bi : Dist) (Si : List Nat)
    (K : List (Nat × Nat)) : List (Nat × Nat) :=
  Si.foldl
    (fun kk x =>
      match st.d x with
      | some dx => if dle Bpi (some dx) && dlt (some dx) Bi then kk ++ [(x, dx)] else kk
      | none => kk)
    K

/-- Modelled from the spec: the main loop of the recursive step of BMSSP
(spec §4.5 step 5); `recur` is the level-`(l−1)` recursive call, `cap` the
size cap `k·2^(l·t)`.  Returns `(capExit, min of executed B'_i, U, st)`;
out of fuel propagates as ResourceExhausted (spec §7). -/
def bmsspLoop (g : Graph)
    (recur : Dist → List Nat → St → Except Err (Dist × List Nat × St))
    (B : Dist) (cap : Nat) :
    Nat → BatchHeap → List Nat → Dist → St →
    Except Err (Bool × Dist × List Nat × St)
  | 0, _, _, _, _ => .error .resourceExhausted
  | fuel + 1, H, U, Bmin, st =>
    if cap ≤ U.length then .ok (true, Bmin, U, st)
    else if H.isEmpty then .ok (false, Bmin, U, st)
    else
      let pl := H.pull
      if pl.2.1.isEmpty then .ok (false, Bmin, U, st)
      else
        match recur pl.1 pl.2.1 st with
        | .error e => .error e
        | .ok r =>
          let U1 := addUnique U r.2.1
          let fld :=
            r.2.1.foldl
              (fun (a : St × BatchHeap × List (Nat × Nat)) u =>
                (g.neighbors u).foldl (bmsspRelaxStep B pl.1 u) a)
              (r.2.2, pl.2.2, ([] : List (Nat × Nat)))
          let K2 := bmsspCollectSi fld.1 r.1 pl.1 pl.2.1 fld.2.2
          bmsspLoop g recur B cap fuel (fld.2.1.batchPrepend K2) U1
            (dmin Bmin r.1) fld.1

/-- Generous fuel for the BMSSP loop of a run on graph `g`. -/
def bmsspFuel (g : Graph) : Nat :=
  (g.n + g.edges.length + 2) * (g.n + g.edges.length + 2) + 2

/-- Modelled from the spec: the recursive procedure
`bmssp(level l, bound B, frontier S) → (B', U)` over the caller-owned
state (spec §4.5).  At `l = 0`, `|S| = 1` is enforced (PreconditionViolation
otherwise) and BaseCase takes over; at `l ≥ 1` the procedure runs
FindPivots, seeds a `BatchHeap(M = 2^((l−1)·t), B)` with the pivots, loops
pulling blocks / recursing / relaxing / prepending, then on exit sets
`B'` (the minimum of the executed `B'_i` and `B` if the size cap triggered
exit, else `B`) and adds `{x ∈ W : d[x] < B'}` to `U`. -/
def bmssp (g : Graph) : Nat → Dist → List Nat → St →
    Except Err (Dist × List Nat × St)
  | 0, B, S, st =>
    if !checkS g S st then .error .preconditionViolation
    else
      match S with
      | [x] => .ok (base_case g x B st)
      | _ => .error .preconditionViolation
  | l + 1, B, S, st =>
    if !checkS g S st then .error .preconditionViolation
    else
      let fp := find_pivots g B S st
      let H0 := fp.1.foldl
        (fun hh p => match fp.2.2.d p with | some dp => hh.insert p dp | none => hh)
        (mkBatchHeap (2 ^ (l * g.t)) B)
      let B0 := fp.1.foldl (fun m p => dmin m (fp.2.2.d p)) B
      let cap := g.k * 2 ^ ((l + 1) * g.t)
      match bmsspLoop g (bmssp g l) B cap (bmsspFuel g) H0 [] B0 fp.2.2 with
      | .error e => .error e
      | .ok lr =>
        let Bp := if lr.1 then dmin lr.2.1 B else B
        let U' := addUnique lr.2.2.1
          (fp.2.1.filter (fun x => dlt (lr.2.2.2.d x) Bp))
        .ok (Bp, U', lr.2.2.2)

/-- Modelled from the spec: the exposed entry
`run_bmssp(graph, d[n], pred[n], level, B, S) → (new_bound, completed)`
(spec §6) — the in-place mutation of `d` and `pred` is embedded by
returning the final arrays alongside the result. -/
def runBMSSP (g : Graph) (d0 : List Dist) (pred0 : List Int)
    (level : Nat) (B : Dist) (S : List Nat) :
    Except Err (Dist × List Nat × List Dist × List Int) :=
  let st : St := { d := fun v => d0.getD v none, pred := fun v => pred0.getD v (-1) }
  match bmssp g level B S st with
  | .error e => .error e
  | .ok (Bp, U, st') =>
    .ok (Bp, U, (List.range g.n).map st'.d, (List.range g.n).map st'.pred)

/-! ### Python package import layer (embedded from src/fastdijkstra/__init__.py) -/

/-- Python-level attribute names of the fastdijkstra package relevant to
its import logic: the eight names of `__all__` plus the module-level
bindings defined unconditionally in fastdijkstra/__init__.py. -/
inductive PyName where
  | graphCls
  | edgeCls
  | dijkstraResultsCls
  | baseCaseResultsCls
  | bmsspResultCls
  | runDijkstraFn
  | runBaseCaseFn
  | runBMSSPFn
  | versionAttr
  | authorAttr
  | emailAttr
  | moduleAvailableAttr
  | allAttr
deriving DecidableEq, Repr

/-- The `__all__` list of fastdijkstra/__init__.py (lines 76–79). -/
def pyAll : List PyName :=
  [.graphCls, .edgeCls, .dijkstraResultsCls, .baseCaseResultsCls,
   .bmsspResultCls, .runDijkstraFn, .runBaseCaseFn, .runBMSSPFn]

/-- Names bound by the module body independently of the compiled extension
(`__version__`, `__author__`, `__email__`, `_module_available`, `__all__`). -/
def pyBase : List PyName :=
  [.versionAttr, .authorAttr, .emailAttr, .moduleAvailableAttr, .allAttr]

/-- Python error kinds arising in the import layer. -/
inductive PyErr where
  | importError
  | attributeError
deriving DecidableEq, Repr

/-- Resulting state of the fastdijkstra module object after executing its
`__init__.py` body. -/
structure PyModuleState where
  moduleAvailable : Bool
  names : List PyName
deriving DecidableEq, Repr

/-- `from ._fastdijkstra import *`: yields the extension's public names when
the compiled module is present, raises ImportError otherwise. -/
def starImport (extensionPresent : Bool) : Except PyErr (List PyName) :=
  if extensionPresent then .ok pyAll else .error .importError

/-- Embedded from fastdijkstra/__init__.py lines 68–79: the module body
performs `from ._fastdijkstra import *` inside `try`, sets
`_module_available = True` on success; on ImportError the handler sets
`_module_available = False` and the module body completes normally either
way. -/
def importFastdijkstra (extensionPresent : Bool) : Except PyErr PyModuleState :=
  match starImport extensionPresent with
  | .ok imported => .ok { moduleAvailable := true, names := pyBase ++ imported }
  | .error .importError => .ok { moduleAvailable := false, names := pyBase }
  | .error e => .error e

/-- Python attribute access on the imported module: raises AttributeError
when the name is not bound — the point at which a missing compiled
extension first surfaces. -/
def PyModuleState.getattr (m : PyModuleState) (a : PyName) : Except PyErr Unit :=
  if m.names.contains a then .ok () else .error .attributeError

/-! ### Concrete graphs and states of the spec's scenarios and the examples

For each concrete graph the cached parameters are the spec's
`k = ⌊(ln n)^(1/3)⌋` and `t = ⌊(ln n)^(2/3)⌋`, clamped to 1 (spec §3):
for n ≤ 2980 this gives k = 1 (since ln n < 8), and t = 1 for n ≤ 16;
for n = 3000, ln 3000 ≈ 8.0064, so k = ⌊2.00053⌋ = 2 and t = ⌊4.0021⌋ = 4. -/

/-- Caller-side initial distance array of python/examples.py lines 81–84:
`[inf] * n` with `distances[source] = 0.0`. -/
def initDistances (n s : Nat) : List Dist :=
  (List.range n).map (fun v => if v = s then some 0 else none)

/-- Caller-side initial predecessor array `[-1] * n` (examples.py line 82). -/
def initPredecessors (n : Nat) : List Int :=
  (List.range n).map (fun _ => -1)

/-- Fresh run state from source `s` (spec §3: `d` starts ∞ except
`d[s] = 0`; `pred` starts −1). -/
def freshSt (s : Nat) : St :=
  { d := fun v => if v = s then some 0 else none, pred := fun _ => -1 }

/-- The 5-vertex graph of python/examples.py `example_dijkstra`
(= spec scenario S2); n = 5 gives k = 1, t = 1. -/
def exampleGraph5 : Graph :=
  ⟨5, [(0,1,2),(0,3,4),(1,2,1),(1,4,7),(2,4,2),(4,3,1)], 1, 1⟩

/-- The 8-vertex graph of python/examples.py
`example_bmssp_main_algorithm`; n = 8 gives k = 1, t = 1. -/
def exampleGraph8 : Graph :=
  ⟨8, [(0,1,1),(0,2,4),(1,2,2),(1,3,5),(2,3,1),(2,4,3),(3,4,1),(3,5,2),
       (4,5,1),(5,6,2),(6,7,1),(4,7,4)], 1, 1⟩

/-- Caller-side level computation of examples.py line 88 for the 8-vertex
graph: `math.ceil(math.log(8) / t)` with t = 1 is ⌈2.0794…⌉ = 3. -/
def exampleLevel8 : Nat := 3

/-- The path graph of spec scenario S3 (`Graph(3)`, edges (0,1,1),(1,2,1));
n = 3 gives k = 1, t = 1, and the top-level level is ⌈ln 3 / 1⌉ = 2. -/
def pathGraph3 : Graph := ⟨3, [(0,1,1),(1,2,1)], 1, 1⟩

/-- The BatchHeap of spec scenario S4: `BatchHeap(M=2, B=10)` after
inserting (a,3),(b,5),(c,1),(d,7), with a,b,c,d numbered 0,1,2,3. -/
def heapS4 : BatchHeap :=
  ((((mkBatchHeap 2 (some 10)).insert 0 3).insert 1 5).insert 2 1).insert 3 7

/-- Heap exhibiting a key tie across the pull boundary: `BatchHeap(M=1, B=10)`
holding (0,3) and (1,3). -/
def heapTie : BatchHeap := ((mkBatchHeap 1 (some 10)).insert 0 3).insert 1 3

/-- A 3000-vertex graph (so that the spec's formula gives k = 2, t = 4)
whose only edges are (0,2,1) and (1,3,1): from the frontier {0, 1} the two
pivot subtrees {0,2} and {1,3} are disjoint and both of size k. -/
def wideGraph : Graph := ⟨3000, [(0,2,1),(1,3,1)], 2, 4⟩

/-- State with the two frontier vertices 0 and 1 at distance 0. -/
def wideSt : St := ⟨fun v => if v ≤ 1 then some 0 else none, fun _ => -1⟩

/-- A 3000-vertex graph (k = 2, t = 4) on which the first FindPivots of a
run from source 0 relaxes 1 → 3 in its second round and then lowers d[1]
via 2 → 1, leaving pred[3] = 1 with d[1] + w(1,3) ≠ d[3]. -/
def predBreakGraph : Graph := ⟨3000, [(0,1,10),(0,2,1),(2,1,1),(1,3,1)], 2, 4⟩

/-- Two-vertex graph with a single zero-weight edge; with k = 1 the bounded
base case completes both vertices at distance 0. -/
def tieGraph : Graph := ⟨2, [(0,1,0)], 1, 1⟩

/-- Two-vertex graph with edge (0,1,5) together with a state in which
vertex 1 already carries the stale finite distance 1: the bounded Dijkstra
from 0 then never relaxes 1. -/
def staleGraph : Graph := ⟨2, [(0,1,5)], 1, 1⟩

/-- Pre-seeded state: d = [0, 1], as BMSSP's recursion can leave it. -/
def staleSt : St :=
  ⟨fun v => if v = 0 then some 0 else if v = 1 then some 1 else none, fun _ => -1⟩

/-! ### Further definitions used by the verification -/

/-! ### The predecessor/distance invariant of a run from source `s` -/

/-- State invariant of a run from source `s`: the source keeps distance 0;
`pred[v] = −1` exactly when `v` is unreached or is the source; and every
set predecessor `pred[v] = u` is witnessed by an edge `(u, v, w)` with
`d[u] + w ≤ d[v]` (equality holds at the moment `pred[v]` is assigned, and
`d[u]` may only have decreased since). -/
def Inv (g : Graph) (s : Nat) (st : St) : Prop :=
  st.d s = some 0 ∧
  ∀ v : Nat,
    (st.pred v = -1 ↔ (st.d v = none ∨ v = s)) ∧
    ∀ u : Nat, st.pred v = (u : Int) →
      ∃ w : Nat, (u, v, w) ∈ g.edges ∧ dle (dadd (st.d u) w) (st.d v) = true

/-- Is a pair list sorted strictly by `pairLt`? -/
def pairsSorted : List (Nat × Nat) → Bool
  | [] => true
  | [_] => true
  | p :: q :: rest => pairLt p q && pairsSorted (q :: rest)

/-- Do all keys of a pair list lie strictly below the bound `B`? -/
def keysBelow (B : Dist) (l : List (Nat × Nat)) : Bool :=
  l.all (fun p => dlt (some p.2) B)

/-- Well-formedness of a BatchHeap (spec §3, §4.2 invariants): the contents
are sorted by (key, vertex) and no pair with `key ≥ B` is present. -/
def BatchHeap.wf (h : BatchHeap) : Bool :=
  pairsSorted h.items && keysBelow h.B h.items

/-- All vertices of the list have distance strictly below `B`. -/
def allBelow (B : Dist) (d : Nat → Dist) (l : List Nat) : Prop :=
  ∀ v ∈ l, dlt (d v) B = true

/-- Python `hasattr` on the imported module object. -/
def PyModuleState.hasattr (m : PyModuleState) (a : PyName) : Bool :=
  m.names.contains a

/-! ### Order lemmas for distance values -/


theorem dle_refl (a : Dist) : dle a a = true := by
  cases a <;> simp [dle]

theorem dle_of_dlt {a b : Dist} (h : dlt a b = true) : dle a b = true := by
  cases a <;> cases b <;> simp_all [dlt, dle] <;> omega

theorem dlt_irrefl (a : Dist) : dlt a a = false := by
  cases a <;> simp [dlt]

theorem dle_trans {a b c : Dist} (h₁ : dle a b = true) (h₂ : dle b c = true) :
    dle a c = true := by
  cases a <;> cases b <;> cases c <;> simp_all [dle] <;> omega

theorem dlt_of_dle_of_dlt {a b c : Dist} (h₁ : dle a b = true)
    (h₂ : dlt b c = true) : dlt a c = true := by
  cases a <;> cases b <;> cases c <;> simp_all [dle, dlt] <;> omega

theorem dlt_of_dlt_of_dle {a b c : Dist} (h₁ : dlt a b = true)
    (h₂ : dle b c = true) : dlt a c = true := by
  cases a <;> cases b <;> cases c <;> simp_all [dlt, dle] <;> omega

theorem dlt_false_of_dle {a b : Dist} (h : dle a b = true) : dlt b a = false := by
  cases a <;> cases b <;> simp_all [dle, dlt] <;> omega

theorem dmin_le_left (a b : Dist) : dle (dmin a b) a = true := by
  cases a <;> cases b <;> simp [dmin, dle]

theorem dmin_le_right (a b : Dist) : dle (dmin a b) b = true := by
  cases a <;> cases b <;> simp [dmin, dle]

theorem dadd_mono {a b : Dist} (w : Nat) (h : dle a b = true) :
    dle (dadd a w) (dadd b w) = true := by
  cases a <;> cases b <;> simp_all [dle, dadd]

theorem dlt_dadd_self_false (a : Dist) (w : Nat) : dlt (dadd a w) a = false := by
  cases a <;> simp [dadd, dlt]

theorem dlt_some_zero_false (a : Dist) : dlt a (some 0) = false := by
  cases a <;> simp [dlt]

/-! ### Generic fold-preservation lemmas -/

theorem foldl_pres {α β : Type} {P : α → Prop} {f : α → β → α} {l : List β}
    (hf : ∀ a b, b ∈ l → P a → P (f a b)) :
    ∀ a : α, P a → P (l.foldl f a) := by
  induction l with
  | nil => intro a ha; simpa using ha
  | cons x xs ih =>
    intro a ha
    simp only [List.foldl_cons]
    exact ih (fun a' b hb => hf a' b (List.mem_cons_of_mem _ hb))
      (f a x) (hf a x (List.mem_cons_self _ _) ha)

/-! ### Basic facts about the embedded primitives -/

theorem neighbors_mem {g : Graph} {u : Nat} {p : Nat × Nat}
    (h : p ∈ g.neighbors u) : (u, p.1, p.2) ∈ g.edges := by
  simp only [Graph.neighbors, List.mem_map, List.mem_filter] at h
  obtain ⟨e, ⟨he, hu⟩, hp⟩ := h
  have hu' : e.1 = u := by simpa using hu
  have : (u, p.1, p.2) = e := by
    subst hp; rw [← hu']
  rwa [this]

theorem pickMin_mem {d : Nat → Dist} {l : List Nat} {v : Nat}
    (h : pickMin d l = some v) : v ∈ l := by
  induction l with
  | nil => simp [pickMin] at h
  | cons x xs ih =>
    simp only [pickMin] at h
    cases hx : pickMin d xs with
    | none => rw [hx] at h; simp at h; simp [h]
    | some y =>
      rw [hx] at h
      by_cases hb : better d x y = true
      · simp [hb] at h; simp [h]
      · simp [hb] at h; subst h; exact List.mem_cons_of_mem _ (ih hx)

/-- `relaxB` never increases any distance. -/
theorem relaxB_d_le (B : Dist) (st : St) (u v w x : Nat) :
    dle ((relaxB B st u v w).d x) (st.d x) = true := by
  unfold relaxB
  split
  · rename_i hc
    show dle (if x = v then dadd (st.d u) w else st.d x) (st.d x) = true
    by_cases hx : x = v
    · subst hx
      rw [if_pos rfl]
      exact dle_of_dlt (dlt_of_dlt_of_dle hc (dmin_le_left _ _))
    · rw [if_neg hx]
      exact dle_refl _
  · exact dle_refl _

/-- `relaxB` leaves every vertex other than the target untouched. -/
theorem relaxB_d_other (B : Dist) (st : St) (u v w x : Nat) (hx : x ≠ v) :
    (relaxB B st u v w).d x = st.d x := by
  unfold relaxB
  split
  · show (if x = v then dadd (st.d u) w else st.d x) = st.d x
    rw [if_neg hx]
  · rfl

theorem relaxB_pred_other (B : Dist) (st : St) (u v w x : Nat) (hx : x ≠ v) :
    (relaxB B st u v w).pred x = st.pred x := by
  unfold relaxB
  split
  · show (if x = v then (u : Int) else st.pred x) = st.pred x
    rw [if_neg hx]
  · rfl

/-- When the relaxation fires, the target's distance and predecessor are
set jointly, the source is untouched, and the defining equation
`d[v] = d[u] + w` holds in the new state. -/
theorem relaxB_fires (B : Dist) (st : St) (u v w : Nat)
    (hc : dlt (dadd (st.d u) w) (dmin (st.d v) B) = true) :
    (relaxB B st u v w).d v = dadd (st.d u) w
    ∧ (relaxB B st u v w).pred v = (u : Int)
    ∧ (relaxB B st u v w).d u = st.d u := by
  have huv : u ≠ v := by
    intro he
    subst he
    have h1 : dlt (dadd (st.d u) w) (st.d u) = true :=
      dlt_of_dlt_of_dle hc (dmin_le_left _ _)
    rw [dlt_dadd_self_false] at h1
    exact Bool.false_ne_true h1
  unfold relaxB
  rw [if_pos hc]
  refine ⟨?_, ?_, ?_⟩
  · show (if v = v then dadd (st.d u) w else st.d v) = dadd (st.d u) w
    rw [if_pos rfl]
  · show (if v = v then (u : Int) else st.pred v) = (u : Int)
    rw [if_pos rfl]
  · show (if u = v then dadd (st.d u) w else st.d u) = st.d u
    rw [if_neg huv]

theorem dlt_ne_none {a b : Dist} (h : dlt a b = true) : a ≠ none := by
  cases a
  · simp [dlt] at h
  · simp

/-- A single (possibly bounded) relaxation along an actual edge preserves
the invariant. -/
theorem relaxB_inv {g : Graph} {s : Nat} (B : Dist) {st : St} {u v w : Nat}
    (he : (u, v, w) ∈ g.edges) (hInv : Inv g s st) :
    Inv g s (relaxB B st u v w) := by
  by_cases hc : dlt (dadd (st.d u) w) (dmin (st.d v) B) = true
  · obtain ⟨hds, hmain⟩ := hInv
    obtain ⟨hdv, hpv, hdu⟩ := relaxB_fires B st u v w hc
    have hvs : v ≠ s := by
      intro he'
      subst he'
      rw [hds] at hc
      have h2 : dlt (dadd (st.d u) w) (some 0) = true :=
        dlt_of_dlt_of_dle hc (dmin_le_left _ _)
      rw [dlt_some_zero_false] at h2
      exact Bool.false_ne_true h2
    have hfin : dadd (st.d u) w ≠ none := dlt_ne_none hc
    constructor
    · rw [relaxB_d_other B st u v w s (Ne.symm hvs)]
      exact hds
    · intro x
      by_cases hx : x = v
      · subst hx
        constructor
        · rw [hpv, hdv]
          constructor
          · intro h
            exact absurd h (by omega)
          · rintro (h | h)
            · exact absurd h hfin
            · exact absurd h hvs
        · intro u' hu'
          rw [hpv] at hu'
          have : u' = u := by omega
          subst this
          exact ⟨w, he, by rw [hdu, hdv]; exact dle_refl _⟩
      · have hdx : (relaxB B st u v w).d x = st.d x := relaxB_d_other B st u v w x hx
        have hpx : (relaxB B st u v w).pred x = st.pred x :=
          relaxB_pred_other B st u v w x hx
        constructor
        · rw [hdx, hpx]
          exact (hmain x).1
        · intro u' hu'
          rw [hpx] at hu'
          obtain ⟨w', he', hle⟩ := (hmain x).2 u' hu'
          refine ⟨w', he', ?_⟩
          rw [hdx]
          exact dle_trans (dadd_mono w' (relaxB_d_le B st u v w u')) hle
  · unfold relaxB
    rw [if_neg hc]
    exact hInv

/-- FindPivots (all its rounds) preserves the invariant. -/
theorem fpEdgeStep_inv {g : Graph} {s : Nat} {B : Dist} {u : Nat}
    {acc : St × List Nat × List (Nat × Nat)} {p : Nat × Nat}
    (hp : p ∈ g.neighbors u) (h : Inv g s acc.1) :
    Inv g s (fpEdgeStep B u acc p).1 := by
  unfold fpEdgeStep
  split
  · exact relaxB_inv B (neighbors_mem hp) h
  · exact h

theorem fpRound_inv {g : Graph} {s : Nat} {B : Dist}
    {acc : St × List Nat × List (Nat × Nat)} (h : Inv g s acc.1) :
    Inv g s (fpRound g B acc).1 := by
  unfold fpRound
  refine foldl_pres (P := fun a => Inv g s a.1) (fun a u _ ha => ?_) acc h
  exact foldl_pres (P := fun a => Inv g s a.1)
    (fun a' p hp ha' => fpEdgeStep_inv hp ha') a ha

theorem fpRounds_inv {g : Graph} {s : Nat} {B : Dist} :
    ∀ (r : Nat) (acc : St × List Nat × List (Nat × Nat)),
      Inv g s acc.1 → Inv g s (fpRounds g B r acc).1
  | 0, _, h => h
  | r + 1, acc, h => fpRounds_inv r _ (fpRound_inv h)

theorem find_pivots_inv {g : Graph} {s : Nat} {B : Dist} {S : List Nat}
    {st : St} (h : Inv g s st) : Inv g s (find_pivots g B S st).2.2 := by
  simp only [find_pivots]
  split
  · exact h
  · split
    · exact fpRounds_inv g.k (st, S, []) h
    · exact fpRounds_inv g.k (st, S, []) h

/-- BaseCase preserves the invariant. -/
theorem bcRelaxOut_inv {g : Graph} {s v : Nat} {B : Dist}
    {completed : List Nat} {stq : St × List Nat} (h : Inv g s stq.1) :
    Inv g s (bcRelaxOut g B v completed stq).1 := by
  unfold bcRelaxOut
  refine foldl_pres (P := fun a => Inv g s a.1) (fun a p hp ha => ?_) stq h
  dsimp only
  split
  · exact relaxB_inv B (neighbors_mem hp) ha
  · exact ha

theorem baseCaseLoop_inv {g : Graph} {s : Nat} {B : Dist} :
    ∀ (fuel : Nat) (completed queue : List Nat) (st : St), Inv g s st →
      Inv g s (baseCaseLoop g B fuel completed queue st).2
  | 0, _, _, _, h => h
  | fuel + 1, completed, queue, st, h => by
    unfold baseCaseLoop
    split
    · exact h
    · split
      · exact h
      · exact baseCaseLoop_inv fuel _ _ _ (bcRelaxOut_inv h)

theorem base_case_inv {g : Graph} {s x : Nat} {B : Dist} {st : St}
    (h : Inv g s st) : Inv g s (base_case g x B st).2.2 := by
  simp only [base_case]
  split
  · exact baseCaseLoop_inv (g.k + 2) [] [x] st h
  · exact baseCaseLoop_inv (g.k + 2) [] [x] st h

/-- The relax-and-classify step of BMSSP step 5d preserves the invariant. -/
theorem bmsspRelaxStep_inv {g : Graph} {s : Nat} {B Bi : Dist} {u : Nat}
    {acc : St × BatchHeap × List (Nat × Nat)} {p : Nat × Nat}
    (hp : p ∈ g.neighbors u) (h : Inv g s acc.1) :
    Inv g s (bmsspRelaxStep B Bi u acc p).1 := by
  have hrel : Inv g s (relaxB none acc.1 u p.1 p.2) :=
    relaxB_inv none (neighbors_mem hp) h
  unfold bmsspRelaxStep
  split
  · dsimp only
    split
    · split
      · exact hrel
      · split
        · exact hrel
        · exact hrel
    · exact hrel
  · exact h

theorem bmsspLoop_inv {g : Graph} {s : Nat} {B : Dist} {cap : Nat}
    {recur : Dist → List Nat → St → Except Err (Dist × List Nat × St)}
    (hrec : ∀ (Bi : Dist) (Si : List Nat) (st : St)
      (r : Dist × List Nat × St), Inv g s st → recur Bi Si st = .ok r →
      Inv g s r.2.2) :
    ∀ (fuel : Nat) (H : BatchHeap) (U : List Nat) (Bmin : Dist) (st : St)
      (res : Bool × Dist × List Nat × St), Inv g s st →
      bmsspLoop g recur B cap fuel H U Bmin st = .ok res → Inv g s res.2.2.2
  | 0, H, U, Bmin, st, res, h, heq => by
    simp [bmsspLoop] at heq
  | fuel + 1, H, U, Bmin, st, res, h, heq => by
    simp only [bmsspLoop] at heq
    split at heq
    · cases heq
      exact h
    · split at heq
      · cases heq
        exact h
      · split at heq
        · cases heq
          exact h
        · split at heq
          · exact absurd heq (by simp)
          · rename_i r hr
            refine bmsspLoop_inv hrec fuel _ _ _ _ res ?_ heq
            refine foldl_pres
              (P := fun (a : St × BatchHeap × List (Nat × Nat)) => Inv g s a.1)
              (fun a u _ ha => ?_) _ (hrec _ _ _ r h hr)
            exact foldl_pres
              (P := fun (a : St × BatchHeap × List (Nat × Nat)) => Inv g s a.1)
              (fun a' p hp ha' => bmsspRelaxStep_inv hp ha') a ha

/-- The full recursive BMSSP preserves the invariant whenever it returns
successfully. -/
theorem bmssp_inv {g : Graph} {s : Nat} :
    ∀ (l : Nat) (B : Dist) (S : List Nat) (st : St)
      (r : Dist × List Nat × St), Inv g s st →
      bmssp g l B S st = .ok r → Inv g s r.2.2
  | 0, B, S, st, r, h, heq => by
    unfold bmssp at heq
    split at heq
    · exact absurd heq (by simp)
    · split at heq
      · cases heq
        exact base_case_inv h
      · exact absurd heq (by simp)
  | l + 1, B, S, st, r, h, heq => by
    simp only [bmssp] at heq
    split at heq
    · exact absurd heq (by simp)
    · split at heq
      · exact absurd heq (by simp)
      · rename_i lr hlr
        cases heq
        exact bmsspLoop_inv (fun Bi Si st' r' h' he' => bmssp_inv l Bi Si st' r' h' he')
          (bmsspFuel g) _ _ _ _ lr (find_pivots_inv h) hlr

/-! ### Sortedness facts for the BatchHeap -/

theorem pairLt_trans {a b c : Nat × Nat} (h₁ : pairLt a b = true)
    (h₂ : pairLt b c = true) : pairLt a c = true := by
  simp only [pairLt, Bool.or_eq_true, Bool.and_eq_true, beq_iff_eq,
    decide_eq_true_eq] at h₁ h₂ ⊢
  omega

theorem pairLt_key_le {a b : Nat × Nat} (h : pairLt a b = true) : a.2 ≤ b.2 := by
  simp only [pairLt, Bool.or_eq_true, Bool.and_eq_true, beq_iff_eq,
    decide_eq_true_eq] at h
  omega

theorem pairsSorted_cons {p : Nat × Nat} {l : List (Nat × Nat)}
    (h : pairsSorted (p :: l) = true) :
    pairsSorted l = true ∧ ∀ q ∈ l, pairLt p q = true := by
  induction l generalizing p with
  | nil => exact ⟨rfl, by simp⟩
  | cons q rest ih =>
    rw [pairsSorted, Bool.and_eq_true] at h
    obtain ⟨hpq, hrest⟩ := h
    obtain ⟨_, hall⟩ := ih hrest
    exact ⟨hrest, by
      intro r hr
      rcases List.mem_cons.mp hr with h' | h'
      · subst h'; exact hpq
      · exact pairLt_trans hpq (hall r h')⟩

theorem pairsSorted_drop {l : List (Nat × Nat)} (h : pairsSorted l = true) :
    ∀ m : Nat, pairsSorted (l.drop m) = true := by
  induction l with
  | nil => intro m; simp [List.drop_nil]; rfl
  | cons p rest ih =>
    intro m
    cases m with
    | zero => exact h
    | succ m' => exact ih (pairsSorted_cons h).1 m'

theorem pairsSorted_take_drop {l : List (Nat × Nat)} (h : pairsSorted l = true) :
    ∀ (m : Nat), ∀ p ∈ l.take m, ∀ q ∈ l.drop m, pairLt p q = true := by
  induction l with
  | nil => intro m p hp; simp at hp
  | cons a rest ih =>
    intro m p hp q hq
    cases m with
    | zero => simp at hp
    | succ m' =>
      obtain ⟨hsorted, hall⟩ := pairsSorted_cons h
      simp only [List.take_succ_cons] at hp
      simp only [List.drop_succ_cons] at hq
      rcases List.mem_cons.mp hp with h' | h'
      · subst h'
        exact hall q (List.drop_subset m' rest hq)
      · exact ih hsorted m' p h' q hq

theorem keysBelow_mem {B : Dist} {l : List (Nat × Nat)} (h : keysBelow B l = true)
    {p : Nat × Nat} (hp : p ∈ l) : dlt (some p.2) B = true := by
  rw [keysBelow, List.all_eq_true] at h
  exact h p hp

/-! ### Witness-set growth facts for FindPivots -/

theorem fpEdgeStep_W_sub {B : Dist} {u : Nat}
    {acc : St × List Nat × List (Nat × Nat)} {p : Nat × Nat} {x : Nat}
    (h : x ∈ acc.2.1) : x ∈ (fpEdgeStep B u acc p).2.1 := by
  unfold fpEdgeStep
  split
  · dsimp only
    split
    · exact h
    · exact List.mem_append_left _ h
  · exact h

theorem fpRound_W_sub {g : Graph} {B : Dist}
    {acc : St × List Nat × List (Nat × Nat)} {x : Nat} (h : x ∈ acc.2.1) :
    x ∈ (fpRound g B acc).2.1 := by
  unfold fpRound
  refine foldl_pres
    (P := fun (a : St × List Nat × List (Nat × Nat)) => x ∈ a.2.1)
    (fun a u _ ha => ?_) acc h
  exact foldl_pres
    (P := fun (a : St × List Nat × List (Nat × Nat)) => x ∈ a.2.1)
    (fun a' p _ ha' => fpEdgeStep_W_sub ha') a ha

theorem fpRounds_W_sub {g : Graph} {B : Dist} :
    ∀ (r : Nat) (acc : St × List Nat × List (Nat × Nat)) (x : Nat),
      x ∈ acc.2.1 → x ∈ (fpRounds g B r acc).2.1
  | 0, _, _, h => h
  | r + 1, acc, x, h => fpRounds_W_sub r _ x (fpRound_W_sub h)

/-! ### Facts about the BaseCase loop -/

theorem bcRelaxOut_mono (g : Graph) (B : Dist) (v : Nat)
    (completed : List Nat) (stq : St × List Nat) :
    (∀ x : Nat, dle ((bcRelaxOut g B v completed stq).1.d x) (stq.1.d x) = true)
    ∧ (allBelow B stq.1.d stq.2 →
        allBelow B (bcRelaxOut g B v completed stq).1.d
          (bcRelaxOut g B v completed stq).2) := by
  unfold bcRelaxOut
  have main :
      (∀ x : Nat, dle (((g.neighbors v).foldl (fun (b : St × List Nat) p =>
          if dlt (dadd (b.1.d v) p.2) (dmin (b.1.d p.1) B) then
            (relaxB B b.1 v p.1 p.2,
             if completed.contains p.1 || b.2.contains p.1 then b.2 else b.2 ++ [p.1])
          else b) stq).1.d x) (stq.1.d x) = true)
      ∧ (allBelow B stq.1.d stq.2 →
          allBelow B ((g.neighbors v).foldl (fun (b : St × List Nat) p =>
          if dlt (dadd (b.1.d v) p.2) (dmin (b.1.d p.1) B) then
            (relaxB B b.1 v p.1 p.2,
             if completed.contains p.1 || b.2.contains p.1 then b.2 else b.2 ++ [p.1])
          else b) stq).1.d
          ((g.neighbors v).foldl (fun (b : St × List Nat) p =>
          if dlt (dadd (b.1.d v) p.2) (dmin (b.1.d p.1) B) then
            (relaxB B b.1 v p.1 p.2,
             if completed.contains p.1 || b.2.contains p.1 then b.2 else b.2 ++ [p.1])
          else b) stq).2) := by
    have step : ∀ (b : St × List Nat) (p : Nat × Nat),
        ((∀ x : Nat, dle (b.1.d x) (stq.1.d x) = true)
          ∧ (allBelow B stq.1.d stq.2 → allBelow B b.1.d b.2)) →
        ((∀ x : Nat, dle ((if dlt (dadd (b.1.d v) p.2) (dmin (b.1.d p.1) B) then
            (relaxB B b.1 v p.1 p.2,
             if completed.contains p.1 || b.2.contains p.1 then b.2 else b.2 ++ [p.1])
          else b).1.d x) (stq.1.d x) = true)
          ∧ (allBelow B stq.1.d stq.2 → allBelow B
              (if dlt (dadd (b.1.d v) p.2) (dmin (b.1.d p.1) B) then
            (relaxB B b.1 v p.1 p.2,
             if completed.contains p.1 || b.2.contains p.1 then b.2 else b.2 ++ [p.1])
          else b).1.d
              (if dlt (dadd (b.1.d v) p.2) (dmin (b.1.d p.1) B) then
            (relaxB B b.1 v p.1 p.2,
             if completed.contains p.1 || b.2.contains p.1 then b.2 else b.2 ++ [p.1])
          else b).2)) := by
      intro b p hb
      by_cases hc : dlt (dadd (b.1.d v) p.2) (dmin (b.1.d p.1) B) = true
      · rw [if_pos hc]
        obtain ⟨hmono, hbel⟩ := hb
        refine ⟨?_, ?_⟩
        · intro x
          exact dle_trans (relaxB_d_le B b.1 v p.1 p.2 x) (hmono x)
        · intro hinit
          intro y hy
          have hdnew : ∀ z : Nat, dlt (b.1.d z) B = true →
              dlt ((relaxB B b.1 v p.1 p.2).d z) B = true := fun z hz =>
            dlt_of_dle_of_dlt (relaxB_d_le B b.1 v p.1 p.2 z) hz
          by_cases hsplit : completed.contains p.1 || b.2.contains p.1
          · rw [if_pos hsplit] at hy
            exact hdnew y (hbel hinit y hy)
          · rw [if_neg hsplit] at hy
            rcases List.mem_append.mp hy with h' | h'
            · exact hdnew y (hbel hinit y h')
            · have : y = p.1 := by simpa using h'
              subst this
              have := (relaxB_fires B b.1 v p.1 p.2 hc).1
              rw [this]
              exact dlt_of_dlt_of_dle hc (dmin_le_right _ _)
      · rw [if_neg hc]
        exact hb
    exact foldl_pres
      (P := fun (b : St × List Nat) =>
        (∀ x : Nat, dle (b.1.d x) (stq.1.d x) = true)
          ∧ (allBelow B stq.1.d stq.2 → allBelow B b.1.d b.2))
      (fun b p _ hb => step b p hb) stq
      ⟨fun x => dle_refl _, fun h => h⟩
  exact main

theorem baseCaseLoop_below {g : Graph} {B : Dist} :
    ∀ (fuel : Nat) (completed queue : List Nat) (st : St),
      allBelow B st.d completed → allBelow B st.d queue →
      allBelow B (baseCaseLoop g B fuel completed queue st).2.d
        (baseCaseLoop g B fuel completed queue st).1
  | 0, _, _, _, hc, _ => hc
  | fuel + 1, completed, queue, st, hc, hq => by
    unfold baseCaseLoop
    split
    · exact hc
    · split
      · exact hc
      · rename_i v hv
        have hvq : v ∈ queue := pickMin_mem hv
        have hc' : allBelow B st.d (completed ++ [v]) := by
          intro y hy
          rcases List.mem_append.mp hy with h' | h'
          · exact hc y h'
          · have : y = v := by simpa using h'
            subst this
            exact hq _ hvq
        have hq' : allBelow B st.d (queue.filter (fun x => x != v)) := by
          intro y hy
          exact hq y (List.mem_of_mem_filter hy)
        have hrel := bcRelaxOut_mono g B v (completed ++ [v])
          (st, queue.filter (fun x => x != v))
        refine baseCaseLoop_below fuel _ _ _ ?_ (hrel.2 hq')
        intro y hy
        exact dlt_of_dle_of_dlt (hrel.1 y) (hc' y hy)

theorem baseCaseLoop_len {g : Graph} {B : Dist} :
    ∀ (fuel : Nat) (completed queue : List Nat) (st : St),
      completed.length ≤ g.k + 1 →
      (baseCaseLoop g B fuel completed queue st).1.length ≤ g.k + 1
  | 0, _, _, _, h => h
  | fuel + 1, completed, queue, st, h => by
    unfold baseCaseLoop
    split
    · exact h
    · split
      · exact h
      · rename_i hlen v hv
        refine baseCaseLoop_len fuel _ _ _ ?_
        simp only [List.length_append, List.length_cons, List.length_nil]
        omega

/-! ### Facts about the completed-set maximum -/

theorem maxFold_cases (d : Nat → Dist) :
    ∀ (l : List Nat) (init : Dist),
      (∃ c ∈ l, l.foldl (fun m v => if dlt m (d v) then d v else m) init = d c)
      ∨ l.foldl (fun m v => if dlt m (d v) then d v else m) init = init := by
  intro l
  induction l with
  | nil => intro init; right; rfl
  | cons c rest ih =>
    intro init
    simp only [List.foldl_cons]
    by_cases hc : dlt init (d c) = true
    · rw [if_pos hc]
      rcases ih (d c) with ⟨c', hc', he⟩ | he
      · exact Or.inl ⟨c', List.mem_cons_of_mem _ hc', he⟩
      · exact Or.inl ⟨c, List.mem_cons_self _ _, he⟩
    · rw [if_neg hc]
      rcases ih init with ⟨c', hc', he⟩ | he
      · exact Or.inl ⟨c', List.mem_cons_of_mem _ hc', he⟩
      · exact Or.inr he

theorem length_filter_lt_of_mem {α : Type} {p : α → Bool} {l : List α} {c : α}
    (hc : c ∈ l) (hpc : p c = false) : (l.filter p).length < l.length := by
  induction l with
  | nil => simp at hc
  | cons a rest ih =>
    rcases List.mem_cons.mp hc with h' | h'
    · subst h'
      rw [List.filter_cons_of_neg (by simp [hpc])]
      have := List.length_filter_le p rest
      simp only [List.length_cons]
      omega
    · cases hpa : p a with
      | true =>
        rw [List.filter_cons_of_pos (by simp [hpa])]
        simp only [List.length_cons]
        exact Nat.succ_lt_succ (ih h')
      | false =>
        rw [List.filter_cons_of_neg (by simp [hpa])]
        simp only [List.length_cons]
        exact Nat.lt_succ_of_lt (ih h')

/-! ### Claim theorems -/

/-- C1: the claim states that `run_bmssp` (entered at the top level
`l = ⌈(ln n)/t⌉ = 2` for n = 3, with bound ∞, frontier {0}, d initialized
to ∞ except d[0] = 0) leaves `d` equal to the Dijkstra oracle's distances.
Evaluating the spec's pseudocode at spec scenario S3 (the path graph
0 → 1 → 2 with unit weights) refutes this: the modelled `run_bmssp` leaves
d = [0, 1, ∞] — vertex 2, reachable at distance 2, stays unreached —
while `run_dijkstra` returns [0, 1, 2].  Vertex 1 is relaxed during
FindPivots, but the early exit of spec §4.4 returns W = S (discarding the
witness set) and all relaxations are strict-only, so vertex 1 never joins
any frontier and its out-edge is never scanned again. -/
theorem c1_bmssp_misses_reachable_vertex :
    runBMSSP pathGraph3 (initDistances 3 0) (initPredecessors 3) 2 none [0]
      = .ok (none, [0], [some 0, some 1, none], [-1, 0, -1])
    ∧ runDijkstra pathGraph3 0 = ([some 0, some 1, some 2], [-1, 0, 1]) :=
  ⟨by rfl, by decide⟩

/-- C5: on the 5-vertex graph of `example_dijkstra` (spec scenario S2),
the shortest-path computation from source 0 produces exactly
d = [0, 2, 3, 4, 5] and pred = [−1, 0, 1, 0, 2]. -/
theorem c5_dijkstra_example :
    runDijkstra exampleGraph5 0
      = ([some 0, some 2, some 3, some 4, some 5], [-1, 0, 1, 0, 2]) := by
  decide

/-- C6: for every BatchHeap with bound B, vertex v and key with key ≥ B,
`insert(v, key)` leaves the heap's entire state unchanged (same pairs,
same keys, hence the same pull/hold partition) and raises no error
(the operation is total). -/
theorem c6_insert_geB_noop (h : BatchHeap) (v key : Nat)
    (hk : dle h.B (some key) = true) : h.insert v key = h := by
  unfold BatchHeap.insert
  rw [dlt_false_of_dle hk]
  simp

/-- C6 witness: inserting key 12 ≥ B = 10 into the scenario-S4 heap is a
no-op. -/
theorem c6_witness :
    dle heapS4.B (some 12) = true ∧ heapS4.insert 4 12 = heapS4 :=
  ⟨by decide, c6_insert_geB_noop heapS4 4 12 (by decide)⟩

/-- C7 counterexample: the claim states that the top-level entry itself
computes l, initializes d[s] = 0 and calls BMSSP — so the caller would not
have to; but the exposed entry `run_bmssp(graph, d, pred, level, B, S)`
(spec §6) takes all of these from the caller, and invoking it on the
8-vertex example graph with the distance array left all-∞ (the caller's
initialization omitted) fails with PreconditionViolation instead of
initializing d[0] = 0 itself. -/
theorem c7_counterexample :
    runBMSSP exampleGraph8 ((List.range 8).map (fun _ => none))
      (initPredecessors 8) exampleLevel8 none [0]
      = .error .preconditionViolation := by
  rfl

/-- C7 amended: the CALLER computes l = ⌈(ln n)/t⌉ (= 3 for n = 8, t = 1),
initializes d[s] = 0 and passes them to `run_bmssp`, exactly as
python/examples.py lines 80–96 and the package docstrings do; with that
caller-side setup the entry runs successfully. -/
theorem c7_amended :
    (initDistances 8 0).getD 0 none = some 0
    ∧ exampleLevel8 = 3
    ∧ runBMSSP exampleGraph8 (initDistances 8 0) (initPredecessors 8)
        exampleLevel8 none [0]
      = .ok (none, [0], [some 0, some 1, some 4, none, none, none, none, none],
             [-1, 0, 0, -1, -1, -1, -1, -1]) :=
  ⟨by decide, rfl, by rfl⟩

/-- C10: importing the fastdijkstra package with the compiled extension
absent succeeds (the ImportError of the star-import is caught), leaves
`_module_available = False`, defines none of the `__all__` names — so the
missing extension surfaces only as an AttributeError when one of those
names is first used; with the extension present all names are defined. -/
theorem c10_import_fallback :
    importFastdijkstra false = .ok { moduleAvailable := false, names := pyBase }
    ∧ pyAll.all
        (fun a => !(PyModuleState.mk false pyBase).hasattr a) = true
    ∧ (PyModuleState.mk false pyBase).getattr .graphCls
        = .error .attributeError
    ∧ importFastdijkstra true
        = .ok { moduleAvailable := true, names := pyBase ++ pyAll }
    ∧ pyAll.all
        (fun a => (PyModuleState.mk true (pyBase ++ pyAll)).hasattr a) = true :=
  ⟨rfl, by decide, rfl, rfl, by decide⟩

/-- C2 counterexample: the claim states that every key of a returned
vertex satisfies key < B_pull.  With `BatchHeap(M=1, B=10)` holding the
tied pairs (0,3) and (1,3), `pull()` removes (0,3) — vertex-index
tie-breaking — and the smallest remaining key is 3, so B_pull = 3 while
the returned vertex 0 has key 3, and 3 < 3 fails. -/
theorem c2_counterexample :
    heapTie.items = [(0, 3), (1, 3)]
    ∧ heapTie.pull.1 = some 3
    ∧ heapTie.pull.2.1 = [0]
    ∧ dlt (some 3) heapTie.pull.1 = false := by
  decide

/-- C2 amended: for a well-formed BatchHeap, `pull()` removes at most M
pairs, the removed pairs are the (key, vertex)-smallest pairs present,
B_pull is the smallest key remaining after removal (or B if the heap is or
becomes empty), every key of a returned vertex satisfies key ≤ B_pull ≤ B
(equality possible only under key ties across the removal boundary), a
pull on an empty heap returns (B, ∅), and the S4 scenario holds:
BatchHeap(M=2, B=10) after (a,3),(b,5),(c,1),(d,7) pulls (5,{c,a}), then
(10,{b,d}), then (10,∅). -/
theorem c2_amended (h : BatchHeap) (hwf : h.wf = true) :
    h.pull.2.1.length ≤ h.M
    ∧ h.pull.2.1 = (h.items.take h.M).map (fun p => p.1)
    ∧ h.pull.2.2.items = h.items.drop h.M
    ∧ (∀ p ∈ h.items.take h.M, ∀ q ∈ h.items.drop h.M, pairLt p q = true)
    ∧ (h.items.drop h.M = [] → h.pull.1 = h.B)
    ∧ (∀ q ∈ h.items.drop h.M, dle h.pull.1 (some q.2) = true)
    ∧ (∀ p ∈ h.items.take h.M, dle (some p.2) h.pull.1 = true)
    ∧ dle h.pull.1 h.B = true
    ∧ (h.items = [] → h.pull = (h.B, [], h))
    ∧ (heapS4.pull.1 = some 5 ∧ heapS4.pull.2.1 = [2, 0]
       ∧ heapS4.pull.2.2.pull.1 = some 10 ∧ heapS4.pull.2.2.pull.2.1 = [1, 3]
       ∧ heapS4.pull.2.2.pull.2.2.pull.1 = some 10
       ∧ heapS4.pull.2.2.pull.2.2.pull.2.1 = []) := by
  rw [BatchHeap.wf, Bool.and_eq_true] at hwf
  obtain ⟨hsort, hbelow⟩ := hwf
  have hsep : ∀ p ∈ h.items.take h.M, ∀ q ∈ h.items.drop h.M, pairLt p q = true :=
    pairsSorted_take_drop hsort h.M
  have hBp : h.pull.1 = (match h.items.drop h.M with
      | [] => h.B
      | q :: _ => some q.2) := rfl
  refine ⟨?_, rfl, rfl, hsep, ?_, ?_, ?_, ?_, ?_, by decide⟩
  · show ((h.items.take h.M).map (fun p => p.1)).length ≤ h.M
    rw [List.length_map, List.length_take]
    exact min_le_left _ _
  · intro hd
    rw [hBp, hd]
  · intro q hq
    rw [hBp]
    cases hd : h.items.drop h.M with
    | nil => rw [hd] at hq; simp at hq
    | cons q0 rest =>
      rw [hd] at hq
      rcases List.mem_cons.mp hq with h' | h'
      · subst h'
        exact dle_refl _
      · have hsd : pairsSorted (q0 :: rest) = true := by
          rw [← hd]; exact pairsSorted_drop hsort h.M
        have := (pairsSorted_cons hsd).2 q h'
        simp only [dle, decide_eq_true_eq]
        exact pairLt_key_le this
  · intro p hp
    rw [hBp]
    cases hd : h.items.drop h.M with
    | nil =>
      exact dle_of_dlt (keysBelow_mem hbelow (List.take_subset h.M h.items hp))
    | cons q0 rest =>
      have := hsep p hp q0 (by rw [hd]; exact List.mem_cons_self _ _)
      simp only [dle, decide_eq_true_eq]
      exact pairLt_key_le this
  · rw [hBp]
    cases hd : h.items.drop h.M with
    | nil => exact dle_refl _
    | cons q0 rest =>
      refine dle_of_dlt (keysBelow_mem hbelow ?_)
      exact List.drop_subset h.M h.items (by rw [hd]; exact List.mem_cons_self _ _)
  · intro hempty
    cases h with
    | mk M B items =>
      replace hempty : items = [] := hempty
      subst hempty
      simp [BatchHeap.pull]

/-- C2 amended witness: the scenario-S4 heap is well-formed and its pull
removes at most M = 2 pairs. -/
theorem c2_amended_witness :
    heapS4.wf = true ∧ heapS4.pull.2.1.length ≤ heapS4.M :=
  ⟨by decide, (c2_amended heapS4 (by decide)).1⟩

/-- C3 counterexample: the claim bounds |P| by ⌈|S|/k⌉.  On a 3000-vertex
graph (whose cached parameters per the spec's formula are k = 2, t = 4)
with edges (0,2,1) and (1,3,1) and frontier S = {0, 1} at distance 0,
FindPivots builds the two disjoint subtrees {0,2} and {1,3}, each of size
k = 2, so both sources are pivots: |P| = 2 > ⌈2/2⌉ = 1. -/
theorem c3_counterexample :
    (find_pivots wideGraph none [0, 1] wideSt).1 = [0, 1]
    ∧ (find_pivots wideGraph none [0, 1] wideSt).2.1 = [0, 1, 2, 3]
    ∧ wideGraph.k = 2
    ∧ ¬ ((find_pivots wideGraph none [0, 1] wideSt).1.length
          ≤ (([0, 1] : List Nat).length + wideGraph.k - 1) / wideGraph.k) := by
  refine ⟨by decide, by decide, by decide, ?_⟩
  intro hle
  have h1 : (find_pivots wideGraph none [0, 1] wideSt).1.length = 2 := by decide
  rw [h1] at hle
  have h2 : (([0, 1] : List Nat).length + wideGraph.k - 1) / wideGraph.k = 1 := by
    decide
  omega

/-- C3 amended: for every graph with k ≥ 1, every bound B and frontier S,
`find_pivots` returns (P, W) with |P| ≤ |S| (each pivot is a source and
the pivot subtrees are disjoint of size ≥ k, so in fact |P| ≤ |W|/k as
spec §4.4 itself guarantees), S ⊆ W, |W| ≤ k·|S|; in the early-exit
branch (|W| > k·|S| after the k rounds) it returns P = S, W = S; and
|S| = 0 yields (∅, ∅). -/
theorem c3_amended (g : Graph) (hk : 1 ≤ g.k) (B : Dist) (S : List Nat)
    (st : St) :
    (find_pivots g B S st).1.length ≤ S.length
    ∧ (∀ x ∈ S, x ∈ (find_pivots g B S st).2.1)
    ∧ (find_pivots g B S st).2.1.length ≤ g.k * S.length
    ∧ (S.isEmpty = false →
        g.k * S.length < (fpRounds g B g.k (st, S, [])).2.1.length →
        find_pivots g B S st = (S, S, (fpRounds g B g.k (st, S, [])).1))
    ∧ find_pivots g B [] st = ([], [], st) := by
  refine ⟨?_, ?_, ?_, ?_, by rfl⟩
  · simp only [find_pivots]
    split
    · simp
    · split
      · exact Nat.le_refl _
      · exact List.length_filter_le _ _
  · intro x hx
    simp only [find_pivots]
    split
    · rename_i hS
      rw [List.isEmpty_iff] at hS
      subst hS
      simp at hx
    · split
      · exact hx
      · exact fpRounds_W_sub g.k (st, S, []) x hx
  · simp only [find_pivots]
    split
    · rename_i hS
      rw [List.isEmpty_iff] at hS
      subst hS
      simp
    · split
      · calc S.length = 1 * S.length := (Nat.one_mul _).symm
          _ ≤ g.k * S.length := Nat.mul_le_mul_right _ hk
      · rename_i hlt
        show (fpRounds g B g.k (st, S, [])).2.1.length ≤ g.k * S.length
        omega
  · intro hne hlt
    simp only [find_pivots]
    rw [if_neg (by simp [hne]), if_pos hlt]

/-- C3 amended witness: instantiated on the 3000-vertex two-subtree graph,
whose k = 2 ≥ 1; the returned pivot set has size ≤ |S| = 2. -/
theorem c3_amended_witness :
    1 ≤ wideGraph.k
    ∧ (find_pivots wideGraph none [0, 1] wideSt).1.length
        ≤ ([0, 1] : List Nat).length :=
  ⟨by decide, (c3_amended wideGraph (by decide) none [0, 1] wideSt).1⟩

/-- C4 counterexample (two explicit inputs, one per refuted conjunct).
(1) On the two-vertex graph with the zero-weight edge (0,1,0), k = 1 and
fresh state from 0, the bounded Dijkstra completes k+1 = 2 vertices, both
at distance 0, so B' = 0 and the trimmed U = {v : d[v] < 0} is empty:
|U| = 0 ≠ k = 1, refuting "so that |U| = k".
(2) On the two-vertex graph with edge (0,1,5), bound 10 and a state where
vertex 1 already holds the stale finite distance 1, the queue empties
after completing only vertex 0 (5 < min(1,10) fails), so the non-overflow
branch returns B' = B with U = {0} — yet vertex 1 is reachable from 0
with distance 5 < 10, refuting "U is the entire set of vertices reachable
from x with distance < B". -/
theorem c4_counterexample :
    (tieGraph.k = 1
      ∧ (baseCaseLoop tieGraph (some 10) 3 [] [0] (freshSt 0)).1 = [0, 1]
      ∧ (base_case tieGraph 0 (some 10) (freshSt 0)).1 = some 0
      ∧ (base_case tieGraph 0 (some 10) (freshSt 0)).2.1 = [])
    ∧ ((base_case staleGraph 0 (some 10) staleSt).1 = some 10
      ∧ (base_case staleGraph 0 (some 10) staleSt).2.1 = [0]
      ∧ staleSt.d 1 = some 1
      ∧ staleGraph.edges = [(0, 1, 5)]) := by
  decide

/-- C4 amended: for every graph, source x with d[x] < B and bound B,
`base_case(graph, x, B)` returns (B', U) where every vertex of U has final
distance < B; if the bounded Dijkstra completed k+1 vertices, B' is the
maximum distance among them and U is the completed vertices with distance
< B', so |U| ≤ k (equality can fail under distance ties); otherwise
B' = B and U is the set of vertices completed by the bounded run. -/
theorem c4_amended (g : Graph) (x : Nat) (B : Dist) (st : St)
    (hx : dlt (st.d x) B = true) :
    (∀ v ∈ (base_case g x B st).2.1,
        dlt ((base_case g x B st).2.2.d v) B = true)
    ∧ (g.k + 1 ≤ (baseCaseLoop g B (g.k + 2) [] [x] st).1.length →
        (base_case g x B st).1
          = maxDistOver (baseCaseLoop g B (g.k + 2) [] [x] st).2.d
              (baseCaseLoop g B (g.k + 2) [] [x] st).1
        ∧ (base_case g x B st).2.1
          = (baseCaseLoop g B (g.k + 2) [] [x] st).1.filter
              (fun v => dlt ((baseCaseLoop g B (g.k + 2) [] [x] st).2.d v)
                (maxDistOver (baseCaseLoop g B (g.k + 2) [] [x] st).2.d
                  (baseCaseLoop g B (g.k + 2) [] [x] st).1))
        ∧ (base_case g x B st).2.1.length ≤ g.k)
    ∧ ((baseCaseLoop g B (g.k + 2) [] [x] st).1.length ≤ g.k →
        (base_case g x B st).1 = B
        ∧ (base_case g x B st).2.1
            = (baseCaseLoop g B (g.k + 2) [] [x] st).1) := by
  have hbelow := baseCaseLoop_below (g := g) (B := B) (g.k + 2) [] [x] st
    (by intro v hv; simp at hv)
    (by
      intro v hv
      have hvx : v = x := by simpa using hv
      subst hvx
      exact hx)
  have hlen := baseCaseLoop_len (g := g) (B := B) (g.k + 2) [] [x] st
    (by simp)
  by_cases hov : g.k + 1 ≤ (baseCaseLoop g B (g.k + 2) [] [x] st).1.length
  · have hbc : base_case g x B st
        = (maxDistOver (baseCaseLoop g B (g.k + 2) [] [x] st).2.d
            (baseCaseLoop g B (g.k + 2) [] [x] st).1,
           (baseCaseLoop g B (g.k + 2) [] [x] st).1.filter
             (fun v => dlt ((baseCaseLoop g B (g.k + 2) [] [x] st).2.d v)
               (maxDistOver (baseCaseLoop g B (g.k + 2) [] [x] st).2.d
                 (baseCaseLoop g B (g.k + 2) [] [x] st).1)),
           (baseCaseLoop g B (g.k + 2) [] [x] st).2) := by
      simp only [base_case]
      rw [if_pos hov]
    refine ⟨?_, ?_, ?_⟩
    · intro v hv
      rw [hbc] at hv ⊢
      exact hbelow v (List.mem_of_mem_filter hv)
    · intro _
      refine ⟨by rw [hbc], by rw [hbc], ?_⟩
      rw [hbc]
      show ((baseCaseLoop g B (g.k + 2) [] [x] st).1.filter _).length ≤ g.k
      rcases maxFold_cases (baseCaseLoop g B (g.k + 2) [] [x] st).2.d
          (baseCaseLoop g B (g.k + 2) [] [x] st).1 (some 0) with ⟨c, hc, he⟩ | he
      · have hfilter := length_filter_lt_of_mem
          (p := fun v => dlt ((baseCaseLoop g B (g.k + 2) [] [x] st).2.d v)
            (maxDistOver (baseCaseLoop g B (g.k + 2) [] [x] st).2.d
              (baseCaseLoop g B (g.k + 2) [] [x] st).1)) hc
          (by
            show dlt _ (maxDistOver _ _) = false
            rw [maxDistOver, he]
            exact dlt_irrefl _)
        omega
      · have hfilter : (baseCaseLoop g B (g.k + 2) [] [x] st).1.filter
            (fun v => dlt ((baseCaseLoop g B (g.k + 2) [] [x] st).2.d v)
              (maxDistOver (baseCaseLoop g B (g.k + 2) [] [x] st).2.d
                (baseCaseLoop g B (g.k + 2) [] [x] st).1)) = [] := by
          rw [List.filter_eq_nil]
          intro a _
          rw [maxDistOver, he]
          simp [dlt_some_zero_false]
        rw [hfilter]
        simp
    · intro hno
      omega
  · have hbc : base_case g x B st
        = (B, (baseCaseLoop g B (g.k + 2) [] [x] st).1,
           (baseCaseLoop g B (g.k + 2) [] [x] st).2) := by
      simp only [base_case]
      rw [if_neg hov]
    refine ⟨?_, by intro h; exact absurd h hov, by intro _; rw [hbc]; exact ⟨rfl, rfl⟩⟩
    intro v hv
    rw [hbc] at hv ⊢
    exact hbelow v hv

/-- C4 amended witness: instantiated on the S3 path graph from source 0
with bound 10; every completed vertex ends with distance < 10. -/
theorem c4_amended_witness :
    dlt ((freshSt 0).d 0) (some 10) = true
    ∧ ∀ v ∈ (base_case pathGraph3 0 (some 10) (freshSt 0)).2.1,
        dlt ((base_case pathGraph3 0 (some 10) (freshSt 0)).2.2.d v)
          (some 10) = true :=
  ⟨by decide, (c4_amended pathGraph3 0 (some 10) (freshSt 0) (by decide)).1⟩

/-- C8: calling `bmssp` at level 0 with a frontier whose size is not 1
fails with PreconditionViolation (returning the error immediately, with no
relaxation performed); with |S| = 1 and the precondition checks passing
(vertex in range, finite distance) it returns exactly the result of
`base_case` on the single element of S. -/
theorem c8_level_zero (g : Graph) (B : Dist) (st : St) :
    (∀ S : List Nat, S.length ≠ 1 →
        bmssp g 0 B S st = .error .preconditionViolation)
    ∧ (∀ x : Nat, x < g.n → st.d x ≠ none →
        bmssp g 0 B [x] st = .ok (base_case g x B st)) := by
  constructor
  · intro S hS
    match S, hS with
    | [], _ => rfl
    | a :: b :: rest, _ =>
      cases hcs : checkS g (a :: b :: rest) st with
      | false => simp [bmssp, hcs]
      | true => simp [bmssp, hcs]
  · intro x hx hd
    have hcs : checkS g [x] st = true := by
      simp [checkS, hx, hd]
    simp [bmssp, hcs]

/-- C8 witness: at level 0 on the S3 path graph, the empty frontier fails
with PreconditionViolation and the singleton frontier {0} returns the
base-case result. -/
theorem c8_witness :
    bmssp pathGraph3 0 none [] (freshSt 0) = .error .preconditionViolation
    ∧ bmssp pathGraph3 0 none [0] (freshSt 0)
        = .ok (base_case pathGraph3 0 none (freshSt 0)) :=
  ⟨(c8_level_zero pathGraph3 none (freshSt 0)).1 [] (by decide),
   (c8_level_zero pathGraph3 none (freshSt 0)).2 0 (by decide) (by decide)⟩

/-- C9 counterexample (two explicit inputs, one per refuted conjunct).
(1) The final state of the top-level run on the S2 example graph has
pred[0] = −1 while d[0] = 0 ≠ ∞ — the source always violates
"pred[v] = −1 iff d[v] = ∞".
(2) A point during a run: on the 3000-vertex graph (k = 2, t = 4, so the
top level is l = ⌈ln 3000 / 4⌉ = 3) with edges (0,1,10),(0,2,1),(2,1,1),
(1,3,1), the state after step 1 of the top-level call — its first
FindPivots, evaluated here directly on the initial state — has
pred[3] = 1 with d[1] = 2 and d[3] = 11, but the only edge from 1 to 3
has weight 1 and 2 + 1 ≠ 11: round 2 first relaxed 1 → 3 and then lowered
d[1] via 2 → 1, breaking the equation d[u] + w = d[v]. -/
theorem c9_counterexample :
    runBMSSP exampleGraph5 (initDistances 5 0) (initPredecessors 5) 2 none [0]
      = .ok (none, [0], [some 0, some 2, none, some 4, none],
             [-1, 0, -1, 0, -1])
    ∧ ((find_pivots predBreakGraph none [0] (freshSt 0)).2.2.pred 3 = (1 : Int)
       ∧ (find_pivots predBreakGraph none [0] (freshSt 0)).2.2.d 1 = some 2
       ∧ (find_pivots predBreakGraph none [0] (freshSt 0)).2.2.d 3 = some 11
       ∧ predBreakGraph.edges = [(0, 1, 10), (0, 2, 1), (2, 1, 1), (1, 3, 1)]) :=
  ⟨by rfl, by decide⟩

/-- Helper: the fresh initial state of a run from `s` satisfies the
invariant. -/
theorem inv_fresh (g : Graph) (s : Nat) : Inv g s (freshSt s) := by
  refine ⟨by simp [freshSt], ?_⟩
  intro v
  refine ⟨⟨fun _ => ?_, fun _ => rfl⟩, fun u hu => ?_⟩
  · by_cases hv : v = s
    · exact Or.inr hv
    · exact Or.inl (by simp [freshSt, hv])
  · replace hu : (-1 : Int) = (u : Int) := hu
    omega

/-- C9 amended: in every run from source s the state satisfies, at the
entry and exit of every relaxation and of every procedure:
pred[v] = −1 iff (d[v] = ∞ or v = s); whenever pred[v] = u there is an
edge (u, v, w) with d[u] + w ≤ d[v]; and at the moment pred[v] is
assigned the equation d[v] = d[u] + w holds exactly.  Formally: the
invariant `Inv` is preserved by the shared relaxation step (on an actual
edge), by FindPivots, by BaseCase and by every successful BMSSP call, and
a firing relaxation establishes the exact equation. -/
theorem c9_amended :
    (∀ (g : Graph) (s : Nat) (B : Dist) (st : St) (u v w : Nat),
        (u, v, w) ∈ g.edges → Inv g s st → Inv g s (relaxB B st u v w))
    ∧ (∀ (B : Dist) (st : St) (u v w : Nat),
        dlt (dadd (st.d u) w) (dmin (st.d v) B) = true →
        (relaxB B st u v w).d v = dadd ((relaxB B st u v w).d u) w
        ∧ (relaxB B st u v w).pred v = (u : Int))
    ∧ (∀ (g : Graph) (s : Nat) (B : Dist) (S : List Nat) (st : St),
        Inv g s st → Inv g s (find_pivots g B S st).2.2)
    ∧ (∀ (g : Graph) (s x : Nat) (B : Dist) (st : St),
        Inv g s st → Inv g s (base_case g x B st).2.2)
    ∧ (∀ (g : Graph) (s l : Nat) (B : Dist) (S : List Nat) (st : St)
        (r : Dist × List Nat × St),
        Inv g s st → bmssp g l B S st = .ok r → Inv g s r.2.2) := by
  refine ⟨fun g s B st u v w he h => relaxB_inv B he h,
    fun B st u v w hc => ?_,
    fun g s B S st h => find_pivots_inv h,
    fun g s x B st h => base_case_inv h,
    fun g s l B S st r h he => bmssp_inv l B S st r h he⟩
  obtain ⟨h1, h2, h3⟩ := relaxB_fires B st u v w hc
  rw [h1, h3]
  exact ⟨rfl, h2⟩

/-- C9 amended witness: the invariant holds for the fresh S3 state and is
preserved by the bounded base case run from 0. -/
theorem c9_amended_witness :
    Inv pathGraph3 0 (freshSt 0)
    ∧ Inv pathGraph3 0 ((base_case pathGraph3 0 (some 10) (freshSt 0)).2.2) :=
  ⟨inv_fresh pathGraph3 0,
   c9_amended.2.2.2.1 pathGraph3 0 0 (some 10) (freshSt 0)
     (inv_fresh pathGraph3 0)⟩

end FastDijkstra
